import Mathlib

/-!
# Verification of the zcatr content renderer

A shallow embedding of `src/main.rs` of the zcatr repository, centred on
`display_file_content` (the boundary-aware streaming renderer) and
`handle_tar_entries_from_tar_archive` (the TAR entry walker), together with
models of the pieces of the Rust standard library the renderer calls:
`std::str::from_utf8` (modelled by the validator `utf8Valid`),
`String::from_utf8_lossy` (modelled by `lossyDecode`), `str::split` on the
line ending and `join` (modelled by `splitNl` and `joinNl`).

Bytes are modelled as `Nat` (all bytes produced by the embedded code are
< 256; byte-level tests from the source use the same shift patterns as the
Rust `u8` operations, which agree with `Nat` shifts on values < 256, and the
theorems below only ever feed byte lists whose elements are < 256).
Emitted text fragments are modelled as the byte lists the Rust `print!`
calls write (a `&str`/`String` is represented by its UTF-8 bytes).

The embedding models the `cfg(not(target_os = "windows"))` build, whose
`LINE_ENDING` is `"\n"`.
-/

/-- `MAGIC_BYTES_SIZE` of the source: the sniffing window request size. -/
def MAGIC_BYTES_SIZE : Nat := 512

/-- `BUFFER_SIZE` of the source: the render buffer capacity. -/
def BUFFER_SIZE : Nat := 8192

/-- A Unicode scalar value: what a Rust `char` may hold. -/
def scalarChar (c : Nat) : Bool :=
  decide (c < 0xD800) || (decide (0xE000 ≤ c) && decide (c < 0x110000))

/-- The UTF-8 encoding of one scalar value (the bytes Rust's `String`
stores for one `char`). -/
def utf8EncodeChar (c : Nat) : List Nat :=
  if c < 0x80 then [c]
  else if c < 0x800 then [0xC0 + c / 64, 0x80 + c % 64]
  else if c < 0x10000 then
    [0xE0 + c / 4096, 0x80 + c / 64 % 64, 0x80 + c % 64]
  else
    [0xF0 + c / 262144, 0x80 + c / 4096 % 64, 0x80 + c / 64 % 64, 0x80 + c % 64]

/-- UTF-8 encoding of a scalar-value sequence: the bytes of a Rust string. -/
def utf8EncodeList (cs : List Nat) : List Nat :=
  (cs.map utf8EncodeChar).flatten

/-- A UTF-8 continuation byte (`0x80..=0xBF`). -/
def isCont (b : Nat) : Bool := decide (0x80 ≤ b) && decide (b < 0xC0)

/-- The allowed range of the byte after a 3- or 4-byte lead, as in Rust's
`core::str` validation table: `E0` needs `A0..=BF`, `ED` needs `80..=9F`
(no surrogates), `F0` needs `90..=BF`, `F4` needs `80..=8F` (≤ U+10FFFF),
every other lead needs a plain continuation byte. -/
def valid2nd (b b1 : Nat) : Bool :=
  if b = 0xE0 then decide (0xA0 ≤ b1) && decide (b1 < 0xC0)
  else if b = 0xED then decide (0x80 ≤ b1) && decide (b1 < 0xA0)
  else if b = 0xF0 then decide (0x90 ≤ b1) && decide (b1 < 0xC0)
  else if b = 0xF4 then decide (0x80 ≤ b1) && decide (b1 < 0x90)
  else isCont b1

/-- Models `std::str::from_utf8(bytes).is_ok()`: Rust's exact UTF-8
validation (rejecting overlong forms, surrogates and values above
U+10FFFF). -/
def utf8Valid : List Nat → Bool
  | [] => true
  | b :: rest =>
    if b < 0x80 then utf8Valid rest
    else if b < 0xC2 then false
    else
      match rest with
      | [] => false
      | b1 :: r =>
        if b < 0xE0 then isCont b1 && utf8Valid r
        else
          match r with
          | [] => false
          | b2 :: r2 =>
            if b < 0xF0 then valid2nd b b1 && isCont b2 && utf8Valid r2
            else
              match r2 with
              | [] => false
              | b3 :: r3 =>
                if b < 0xF5 then valid2nd b b1 && isCont b2 && isCont b3 && utf8Valid r3
                else false

/-- Models `String::from_utf8_lossy`, as the scalar values of the resulting
string: each maximal prefix of a well-formed sequence that cannot be
completed is replaced by one U+FFFD, and decoding resumes at the offending
byte (Rust's "substitution of maximal subparts" behaviour). -/
def lossyDecode : List Nat → List Nat
  | [] => []
  | b :: rest =>
    if b < 0x80 then b :: lossyDecode rest
    else if b < 0xC2 then 0xFFFD :: lossyDecode rest
    else if b < 0xE0 then
      match rest with
      | [] => [0xFFFD]
      | b1 :: r =>
        if isCont b1 then ((b - 0xC0) * 64 + (b1 - 0x80)) :: lossyDecode r
        else 0xFFFD :: lossyDecode (b1 :: r)
    else if b < 0xF0 then
      match rest with
      | [] => [0xFFFD]
      | b1 :: r =>
        if valid2nd b b1 then
          match r with
          | [] => [0xFFFD]
          | b2 :: r2 =>
            if isCont b2 then
              ((b - 0xE0) * 4096 + (b1 - 0x80) * 64 + (b2 - 0x80)) :: lossyDecode r2
            else 0xFFFD :: lossyDecode (b2 :: r2)
        else 0xFFFD :: lossyDecode (b1 :: r)
    else if b < 0xF5 then
      match rest with
      | [] => [0xFFFD]
      | b1 :: r =>
        if valid2nd b b1 then
          match r with
          | [] => [0xFFFD]
          | b2 :: r2 =>
            if isCont b2 then
              match r2 with
              | [] => [0xFFFD]
              | b3 :: r3 =>
                if isCont b3 then
                  ((b - 0xF0) * 262144 + (b1 - 0x80) * 4096 + (b2 - 0x80) * 64
                    + (b3 - 0x80)) :: lossyDecode r3
                else 0xFFFD :: lossyDecode (b3 :: r3)
            else 0xFFFD :: lossyDecode (b2 :: r2)
        else 0xFFFD :: lossyDecode (b1 :: r)
    else 0xFFFD :: lossyDecode rest

/-- Models `str::split(LINE_ENDING)` on a string given as scalar values,
for the non-Windows `LINE_ENDING` `"\n"` (scalar 10): the pieces between
newlines, empty pieces included, as `split` yields them. -/
def splitNl : List Nat → List (List Nat)
  | [] => [[]]
  | c :: rest =>
    if c = 10 then [] :: splitNl rest
    else
      match splitNl rest with
      | [] => [[c]]
      | l :: ls => (c :: l) :: ls

/-- Models `Vec::join(LINE_ENDING)`: the pieces re-joined with `"\n"`. -/
def joinNl : List (List Nat) → List Nat
  | [] => []
  | [l] => l
  | l :: l' :: ls => l ++ 10 :: joinNl (l' :: ls)

/-- The degraded (malformed UTF-8) path of `display_file_content`, as the
bytes it prints: `String::from_utf8_lossy`, `split(LINE_ENDING)`, keep the
lines whose bytes re-validate with `std::str::from_utf8`, re-join with
`LINE_ENDING` (src/main.rs lines 218-220). -/
def degraded (bs : List Nat) : List Nat :=
  utf8EncodeList (joinNl (((splitNl (lossyDecode bs)).filter
    (fun l => utf8Valid (utf8EncodeList l)))))

/-- The bytes one iteration of the render loop prints for the emit range
`bs`: the range verbatim when `std::str::from_utf8` accepts it, otherwise
the degraded conversion (src/main.rs lines 215-221). -/
def renderFrag (bs : List Nat) : List Nat :=
  if utf8Valid bs then bs else degraded bs

/-- The byte test of the backward scan (src/main.rs line 199):
`b >> 7 == 0x0 || b >> 5 == 0x6 || b >> 4 == 0xE || b >> 3 == 30`,
an ASCII byte or a 2-, 3- or 4-byte lead byte. -/
def isBoundary (b : Nat) : Bool :=
  b >>> 7 == 0 || b >>> 5 == 0x6 || b >>> 4 == 0xE || b >>> 3 == 30

/-- The backward scan of the render loop (src/main.rs lines 195-208): the
buffer split at the last byte passing `isBoundary`.  `some (pre, b, suf)`
means the filled buffer is `pre ++ b :: suf` with `isBoundary b` and no
boundary byte in `suf` (so `b` stands at `right_ptr`); `none` means the scan
walked to the first byte without a match (in which case the Rust closure
executes `return`). -/
def splitLast : List Nat → Option (List Nat × Nat × List Nat)
  | [] => none
  | x :: xs =>
    match splitLast xs with
    | some (p, b, s) => some (x :: p, b, s)
    | none => if isBoundary x then some ([], x, xs) else none

/-- A `ByteSource` (the `reader: R where R: Read` argument): `data` is what
is left to deliver, `chunk` bounds how many bytes one `read` call returns
(a short-read size), and `errs` makes every `read` after exhaustion report
an I/O error instead of end-of-stream. -/
structure Source where
  chunk : Nat
  data : List Nat
  errs : Bool
deriving DecidableEq

/-- One `reader.read(&mut buffer[..req])` call: delivers up to
`min chunk req` of the pending bytes; with none pending it returns `Ok(0)`
(modelled `some []`) or, when `errs`, an I/O error (modelled `none`). -/
def Source.read (s : Source) (req : Nat) : Option (List Nat) × Source :=
  match s.data with
  | [] => (if s.errs then none else some [], s)
  | _ =>
    (some (s.data.take (min (min s.chunk req) s.data.length)),
      ⟨s.chunk, s.data.drop (min (min s.chunk req) s.data.length), s.errs⟩)

/-- Outcome of the streaming loop, with the fragments printed so far:
`done` models the `break` at a zero-byte read, `guard` the `return` when the
backward scan finds no boundary byte, `panicked` the `read_bytes - 1`
underflow when the loop starts with an empty buffer (a Rust panic), and
`fuelOut` is unreachable for sufficient fuel. -/
inductive StreamOut where
  | done (frags : List (List Nat))
  | guard (frags : List (List Nat))
  | panicked (frags : List (List Nat))
  | fuelOut (frags : List (List Nat))
deriving DecidableEq

/-- The fragments an outcome carries. -/
def StreamOut.frags : StreamOut → List (List Nat)
  | .done fs => fs
  | .guard fs => fs
  | .panicked fs => fs
  | .fuelOut fs => fs

/-- Whether the loop ended at the normal `break`. -/
def StreamOut.isDone : StreamOut → Bool
  | .done _ => true
  | _ => false

/-- The `loop` of `printing_handler` (src/main.rs lines 193-237).  `buf` is
the filled region of the 8192-byte buffer (`buffer[..read_bytes]`), `acc`
the fragments printed so far.  Each iteration: backward-scan for the last
boundary byte (underflow panic when the buffer is empty, `return` when the
scan finds none); emit up to and including it when it is ASCII — dropping
any bytes after it — or up to and excluding it otherwise, carrying
`buffer[right_ptr..read_bytes]` to the front; then read the next chunk into
the rest of the buffer, `break`ing on a zero-byte read, with a read error
swallowed into zero by `unwrap_or(0)`. -/
def streamLoop : Nat → Source → List Nat → List (List Nat) → StreamOut × Source
  | 0, src, _, acc => (.fuelOut acc, src)
  | fuel + 1, src, buf, acc =>
    if buf.isEmpty then (.panicked acc, src)
    else
      match splitLast buf with
      | none => (.guard acc, src)
      | some (pre, b, suf) =>
        if b >>> 7 == 0 then
          match src.read BUFFER_SIZE with
          | (got?, src') =>
            if (got?.getD []).isEmpty then
              (.done (acc ++ [renderFrag (pre ++ [b])]), src')
            else
              streamLoop fuel src' (got?.getD []) (acc ++ [renderFrag (pre ++ [b])])
        else
          match src.read (BUFFER_SIZE - (b :: suf).length) with
          | (got?, src') =>
            if (got?.getD []).isEmpty then
              (.done (acc ++ [renderFrag pre]), src')
            else
              streamLoop fuel src' ((b :: suf) ++ got?.getD []) (acc ++ [renderFrag pre])

/-- The streaming phase of `display_file_content` applied to a fresh,
error-free source: the initial `reader.read(&mut buffer[..512])` yields the
magic window, which seeds the render buffer (via the cursor re-read), and
the loop runs from there.  The fuel `data.length + 1` is sufficient because
every continuing iteration consumes at least one pending byte. -/
def renderStream (k : Nat) (input : List Nat) : StreamOut × Source :=
  let r := Source.read ⟨k, input, false⟩ MAGIC_BYTES_SIZE
  match r.1 with
  | some magic => streamLoop (r.2.data.length + 1) r.2 magic []
  | none => (.panicked [], r.2)

/-- `"text/plain"` as scalar values. -/
def mimeTextPlain : List Nat := [116, 101, 120, 116, 47, 112, 108, 97, 105, 110]

/-- `"text/markdown"` as scalar values. -/
def mimeTextMarkdown : List Nat :=
  [116, 101, 120, 116, 47, 109, 97, 114, 107, 100, 111, 119, 110]

/-- `"text/csv"` as scalar values. -/
def mimeTextCsv : List Nat := [116, 101, 120, 116, 47, 99, 115, 118]

/-- `"application/json"` as scalar values. -/
def mimeAppJson : List Nat :=
  [97, 112, 112, 108, 105, 99, 97, 116, 105, 111, 110, 47, 106, 115, 111, 110]

/-- `"application/xml"` as scalar values. -/
def mimeAppXml : List Nat :=
  [97, 112, 112, 108, 105, 99, 97, 116, 105, 111, 110, 47, 120, 109, 108]

/-- `"text/xml"` as scalar values. -/
def mimeTextXml : List Nat := [116, 101, 120, 116, 47, 120, 109, 108]

/-- `"image/png"` as scalar values. -/
def mimeImagePng : List Nat := [105, 109, 97, 103, 101, 47, 112, 110, 103]

/-- The match arm of `display_file_content` (src/main.rs lines 242-243):
the recognized previewable-text MIME labels. -/
def isTextualMime (m : List Nat) : Bool :=
  m = mimeTextPlain || m = mimeTextMarkdown || m = mimeTextCsv ||
  m = mimeAppJson || m = mimeAppXml || m = mimeTextXml

/-- Modelled from the spec: `infer::get`, the magic-byte signature catalog
of the external `infer` crate (a dependency, not code of this repository).
Per the spec's TypeSniffer contract, a window starting with the PNG
signature bytes `89 50 4E 47 0D 0A 1A 0A` is classified (as `image/png`, a
recognized binary format), and a window matching no catalog signature —
including the empty window — yields no classification.  Only the catalog
entries the claims exercise are modelled. -/
def infer_get (w : List Nat) : Option (List Nat) :=
  if w.take 8 = [0x89, 0x50, 0x4E, 0x47, 0x0D, 0x0A, 0x1A, 0x0A] then
    some mimeImagePng
  else none

/-- Outcome of `display_file_content`: `sniffPanic` models the `.unwrap()`
panic when the initial magic-window read fails (src/main.rs line 183),
`notice` the fixed `"Preview not available in console."` message, and
`streamed` carries the streaming phase's outcome. -/
inductive RenderOut where
  | sniffPanic
  | notice
  | streamed (out : StreamOut)
deriving DecidableEq

/-- The content fragments an outcome emits (the notice is not content). -/
def RenderOut.contentFrags : RenderOut → List (List Nat)
  | .streamed o => o.frags
  | _ => []

/-- `display_file_content` (src/main.rs lines 172-258), parametric in the
sniffing function `sniff` standing for `infer::get`: read up to 512 bytes
into the magic window (panicking on a read error); when the sniffed MIME is
a recognized non-text type, print the fixed notice and stop; otherwise run
the streaming loop seeded with the magic window. -/
def display_file_content (sniff : List Nat → Option (List Nat)) (src : Source) :
    RenderOut × Source :=
  let r := src.read MAGIC_BYTES_SIZE
  match r.1 with
  | none => (.sniffPanic, r.2)
  | some magic =>
    match sniff magic with
    | some m =>
      if isTextualMime m then
        let s := streamLoop (r.2.data.length + 1) r.2 magic []
        (.streamed s.1, s.2)
      else (.notice, r.2)
    | none =>
      let s := streamLoop (r.2.data.length + 1) r.2 magic []
      (.streamed s.1, s.2)

/-- What the emitted text amounts to, per the analysis of the loop on valid
input: the input's scalar values, minus the final character when that
character is multi-byte (its bytes are carried at end of stream and
discarded by the `break`). -/
def trimChars (cs : List Nat) : List Nat :=
  match cs.getLast? with
  | none => []
  | some c => if c < 0x80 then cs else cs.dropLast

/-- A TAR archive entry as the walker inspects it: its path and whether its
header's entry type is a directory. -/
structure TarEntry where
  name : List Char
  isDir : Bool
deriving DecidableEq

/-- `handle_tar_entries_from_tar_archive` (src/main.rs lines 309-328), as
the list of entries the `handler` is applied to, in order: the loop skips
(`continue`) exactly the entries whose header entry type is a directory. -/
def handle_tar_entries_from_tar_archive : List TarEntry → List TarEntry
  | [] => []
  | e :: rest =>
    if e.isDir then handle_tar_entries_from_tar_archive rest
    else e :: handle_tar_entries_from_tar_archive rest

/-! ## Basic facts about the encoder, the validator and the boundary test -/

theorem utf8EncodeList_nil : utf8EncodeList [] = [] := rfl

theorem utf8EncodeList_cons (c : Nat) (cs : List Nat) :
    utf8EncodeList (c :: cs) = utf8EncodeChar c ++ utf8EncodeList cs := rfl

theorem utf8EncodeList_append (as bs : List Nat) :
    utf8EncodeList (as ++ bs) = utf8EncodeList as ++ utf8EncodeList bs := by
  simp [utf8EncodeList]

theorem utf8EncodeChar_ne_nil (c : Nat) : utf8EncodeChar c ≠ [] := by
  unfold utf8EncodeChar
  split_ifs <;> simp

theorem utf8EncodeChar_length_le (c : Nat) : (utf8EncodeChar c).length ≤ 4 := by
  unfold utf8EncodeChar
  split_ifs <;> simp

theorem utf8EncodeChar_ascii {c : Nat} (h : c < 0x80) : utf8EncodeChar c = [c] := by
  unfold utf8EncodeChar
  rw [if_pos h]

theorem isBoundary_iff (b : Nat) :
    isBoundary b = true ↔ (b / 128 = 0 ∨ b / 32 = 6 ∨ b / 16 = 14 ∨ b / 8 = 30) := by
  simp only [isBoundary, Nat.shiftRight_eq_div_pow, Bool.or_eq_true, beq_iff_eq]
  norm_num
  tauto

theorem isBoundary_eq_false_iff (b : Nat) :
    isBoundary b = false ↔ ¬(b / 128 = 0 ∨ b / 32 = 6 ∨ b / 16 = 14 ∨ b / 8 = 30) := by
  rw [← isBoundary_iff]
  cases isBoundary b <;> simp

theorem shift7_beq_true_iff (b : Nat) : ((b >>> 7 == 0) = true) ↔ b < 0x80 := by
  simp only [Nat.shiftRight_eq_div_pow, beq_iff_eq]
  norm_num
  omega

theorem shift7_beq_false_iff (b : Nat) : ((b >>> 7 == 0) = false) ↔ 0x80 ≤ b := by
  rw [← Bool.not_eq_true, shift7_beq_true_iff]
  omega

theorem utf8Valid_ascii_cons {b : Nat} (h : b < 0x80) (r : List Nat) :
    utf8Valid (b :: r) = utf8Valid r := by
  rw [utf8Valid.eq_def]
  show (if b < 0x80 then utf8Valid r else _) = _
  rw [if_pos h]

theorem utf8Valid_two {b b1 : Nat} (h1 : 0xC2 ≤ b) (h2 : b < 0xE0) (r : List Nat) :
    utf8Valid (b :: b1 :: r) = (isCont b1 && utf8Valid r) := by
  rw [utf8Valid.eq_def]
  show (if b < 0x80 then _ else if b < 0xC2 then _ else
    if b < 0xE0 then isCont b1 && utf8Valid r else _) = _
  rw [if_neg (by omega), if_neg (by omega), if_pos h2]

theorem utf8Valid_three {b b1 b2 : Nat} (h1 : 0xE0 ≤ b) (h2 : b < 0xF0) (r : List Nat) :
    utf8Valid (b :: b1 :: b2 :: r) = (valid2nd b b1 && isCont b2 && utf8Valid r) := by
  rw [utf8Valid.eq_def]
  show (if b < 0x80 then _ else if b < 0xC2 then _ else if b < 0xE0 then _ else
    if b < 0xF0 then valid2nd b b1 && isCont b2 && utf8Valid r else _) = _
  rw [if_neg (by omega), if_neg (by omega), if_neg (by omega), if_pos h2]

theorem utf8Valid_four {b b1 b2 b3 : Nat} (h1 : 0xF0 ≤ b) (h2 : b < 0xF5) (r : List Nat) :
    utf8Valid (b :: b1 :: b2 :: b3 :: r) =
      (valid2nd b b1 && isCont b2 && isCont b3 && utf8Valid r) := by
  rw [utf8Valid.eq_def]
  show (if b < 0x80 then _ else if b < 0xC2 then _ else if b < 0xE0 then _ else
    if b < 0xF0 then _ else
    if b < 0xF5 then valid2nd b b1 && isCont b2 && isCont b3 && utf8Valid r else false) = _
  rw [if_neg (by omega), if_neg (by omega), if_neg (by omega), if_neg (by omega), if_pos h2]

theorem utf8Valid_encodeChar_append {c : Nat} (h : scalarChar c = true) (r : List Nat) :
    utf8Valid (utf8EncodeChar c ++ r) = utf8Valid r := by
  simp only [scalarChar, Bool.or_eq_true, Bool.and_eq_true, decide_eq_true_eq] at h
  rcases Nat.lt_or_ge c 0x80 with h1 | h1
  · rw [utf8EncodeChar_ascii h1]
    exact utf8Valid_ascii_cons h1 r
  rcases Nat.lt_or_ge c 0x800 with h2 | h2
  · have he : utf8EncodeChar c = [0xC0 + c / 64, 0x80 + c % 64] := by
      unfold utf8EncodeChar
      rw [if_neg (by omega), if_pos h2]
    rw [he]
    show utf8Valid ((0xC0 + c / 64) :: (0x80 + c % 64) :: r) = utf8Valid r
    rw [utf8Valid_two (by omega) (by omega)]
    have hc : isCont (0x80 + c % 64) = true := by
      simp only [isCont, Bool.and_eq_true, decide_eq_true_eq]
      omega
    rw [hc, Bool.true_and]
  rcases Nat.lt_or_ge c 0x10000 with h3 | h3
  · have he : utf8EncodeChar c = [0xE0 + c / 4096, 0x80 + c / 64 % 64, 0x80 + c % 64] := by
      unfold utf8EncodeChar
      rw [if_neg (by omega), if_neg (by omega), if_pos h3]
    rw [he]
    show utf8Valid ((0xE0 + c / 4096) :: (0x80 + c / 64 % 64) :: (0x80 + c % 64) :: r) =
      utf8Valid r
    rw [utf8Valid_three (by omega) (by omega)]
    have h2nd : valid2nd (0xE0 + c / 4096) (0x80 + c / 64 % 64) = true := by
      unfold valid2nd
      by_cases hE0 : 0xE0 + c / 4096 = 0xE0
      · rw [if_pos hE0]
        simp only [Bool.and_eq_true, decide_eq_true_eq]
        omega
      rw [if_neg hE0]
      by_cases hED : 0xE0 + c / 4096 = 0xED
      · rw [if_pos hED]
        simp only [Bool.and_eq_true, decide_eq_true_eq]
        omega
      rw [if_neg hED, if_neg (by omega), if_neg (by omega)]
      simp only [isCont, Bool.and_eq_true, decide_eq_true_eq]
      omega
    have hc1 : isCont (0x80 + c % 64) = true := by
      simp only [isCont, Bool.and_eq_true, decide_eq_true_eq]
      omega
    rw [h2nd, hc1, Bool.true_and, Bool.true_and]
  · have he : utf8EncodeChar c =
        [0xF0 + c / 262144, 0x80 + c / 4096 % 64, 0x80 + c / 64 % 64, 0x80 + c % 64] := by
      unfold utf8EncodeChar
      rw [if_neg (by omega), if_neg (by omega), if_neg (by omega)]
    rw [he]
    show utf8Valid ((0xF0 + c / 262144) :: (0x80 + c / 4096 % 64) ::
      (0x80 + c / 64 % 64) :: (0x80 + c % 64) :: r) = utf8Valid r
    rw [utf8Valid_four (by omega) (by omega)]
    have h2nd : valid2nd (0xF0 + c / 262144) (0x80 + c / 4096 % 64) = true := by
      unfold valid2nd
      rw [if_neg (by omega), if_neg (by omega)]
      by_cases hF0 : 0xF0 + c / 262144 = 0xF0
      · rw [if_pos hF0]
        simp only [Bool.and_eq_true, decide_eq_true_eq]
        omega
      rw [if_neg hF0]
      by_cases hF4 : 0xF0 + c / 262144 = 0xF4
      · rw [if_pos hF4]
        simp only [Bool.and_eq_true, decide_eq_true_eq]
        omega
      rw [if_neg hF4]
      simp only [isCont, Bool.and_eq_true, decide_eq_true_eq]
      omega
    have hc1 : isCont (0x80 + c / 64 % 64) = true := by
      simp only [isCont, Bool.and_eq_true, decide_eq_true_eq]
      omega
    have hc2 : isCont (0x80 + c % 64) = true := by
      simp only [isCont, Bool.and_eq_true, decide_eq_true_eq]
      omega
    rw [h2nd, hc1, hc2, Bool.true_and, Bool.true_and, Bool.true_and]

theorem utf8Valid_encodeList {cs : List Nat} (h : ∀ c ∈ cs, scalarChar c = true) :
    utf8Valid (utf8EncodeList cs) = true := by
  induction cs with
  | nil => rfl
  | cons c cs ih =>
    rw [utf8EncodeList_cons, utf8Valid_encodeChar_append (h c (by simp))]
    exact ih fun x hx => h x (by simp [hx])

theorem scalar2_aux {b b1 : Nat} (h1 : 0xC2 ≤ b) (h2 : b < 0xE0) (hc : isCont b1 = true) :
    scalarChar ((b - 0xC0) * 64 + (b1 - 0x80)) = true := by
  simp only [isCont, Bool.and_eq_true, decide_eq_true_eq] at hc
  simp only [scalarChar, Bool.or_eq_true, Bool.and_eq_true, decide_eq_true_eq]
  omega

theorem scalar3_aux {b b1 b2 : Nat} (h1 : 0xE0 ≤ b) (h2 : b < 0xF0)
    (hv : valid2nd b b1 = true) (hc : isCont b2 = true) :
    scalarChar ((b - 0xE0) * 4096 + (b1 - 0x80) * 64 + (b2 - 0x80)) = true := by
  unfold valid2nd at hv
  simp only [isCont, Bool.and_eq_true, decide_eq_true_eq] at hc
  simp only [scalarChar, Bool.or_eq_true, Bool.and_eq_true, decide_eq_true_eq]
  by_cases hE0 : b = 0xE0
  · rw [if_pos hE0] at hv
    simp only [Bool.and_eq_true, decide_eq_true_eq] at hv
    omega
  rw [if_neg hE0] at hv
  by_cases hED : b = 0xED
  · rw [if_pos hED] at hv
    simp only [Bool.and_eq_true, decide_eq_true_eq] at hv
    omega
  rw [if_neg hED, if_neg (by omega), if_neg (by omega)] at hv
  simp only [isCont, Bool.and_eq_true, decide_eq_true_eq] at hv
  omega

theorem scalar4_aux {b b1 b2 b3 : Nat} (h1 : 0xF0 ≤ b) (h2 : b < 0xF5)
    (hv : valid2nd b b1 = true) (hc2 : isCont b2 = true) (hc3 : isCont b3 = true) :
    scalarChar ((b - 0xF0) * 262144 + (b1 - 0x80) * 4096 + (b2 - 0x80) * 64 + (b3 - 0x80))
      = true := by
  unfold valid2nd at hv
  rw [if_neg (by omega), if_neg (by omega)] at hv
  simp only [isCont, Bool.and_eq_true, decide_eq_true_eq] at hc2 hc3
  simp only [scalarChar, Bool.or_eq_true, Bool.and_eq_true, decide_eq_true_eq]
  by_cases hF0 : b = 0xF0
  · rw [if_pos hF0] at hv
    simp only [Bool.and_eq_true, decide_eq_true_eq] at hv
    omega
  rw [if_neg hF0] at hv
  by_cases hF4 : b = 0xF4
  · rw [if_pos hF4] at hv
    simp only [Bool.and_eq_true, decide_eq_true_eq] at hv
    omega
  rw [if_neg hF4] at hv
  simp only [isCont, Bool.and_eq_true, decide_eq_true_eq] at hv
  omega




theorem lossyDecode_nil : lossyDecode [] = [] := rfl

theorem lossyDecode_step (b : Nat) (rest : List Nat) :
    ∃ v rest', lossyDecode (b :: rest) = v :: lossyDecode rest' ∧ scalarChar v = true ∧
      rest'.length ≤ rest.length := by
  rw [lossyDecode.eq_def]
  by_cases h1 : b < 0x80
  · refine ⟨b, rest, ?_, ?_, Nat.le_refl _⟩
    · simp only [h1, ite_true]
    · simp only [scalarChar, Bool.or_eq_true, Bool.and_eq_true, decide_eq_true_eq]
      omega
  by_cases h2 : b < 0xC2
  · exact ⟨0xFFFD, rest, by simp only [h1, h2, ite_true, ite_false, Bool.false_eq_true, lossyDecode_nil], by decide, Nat.le_refl _⟩
  by_cases h3 : b < 0xE0
  · rcases rest with _ | ⟨b1, r⟩
    · exact ⟨0xFFFD, [], by simp only [h1, h2, h3, ite_true, ite_false, Bool.false_eq_true, lossyDecode_nil], by decide, by simp⟩
    by_cases hc1 : isCont b1
    · exact ⟨(b - 0xC0) * 64 + (b1 - 0x80), r,
        by simp only [h1, h2, h3, hc1, ite_true, ite_false, Bool.false_eq_true, lossyDecode_nil],
        scalar2_aux (by omega) h3 hc1, by simp⟩
    · exact ⟨0xFFFD, b1 :: r,
        by simp only [h1, h2, h3, hc1, ite_true, ite_false, Bool.false_eq_true, lossyDecode_nil], by decide, by simp⟩
  by_cases h4 : b < 0xF0
  · rcases rest with _ | ⟨b1, r⟩
    · exact ⟨0xFFFD, [], by simp only [h1, h2, h3, h4, ite_true, ite_false, Bool.false_eq_true, lossyDecode_nil], by decide, by simp⟩
    by_cases hv : valid2nd b b1
    · rcases r with _ | ⟨b2, r2⟩
      · exact ⟨0xFFFD, [], by simp only [h1, h2, h3, h4, hv, ite_true, ite_false, Bool.false_eq_true, lossyDecode_nil],
          by decide, by simp⟩
      by_cases hc2 : isCont b2
      · exact ⟨(b - 0xE0) * 4096 + (b1 - 0x80) * 64 + (b2 - 0x80), r2,
          by simp only [h1, h2, h3, h4, hv, hc2, ite_true, ite_false, Bool.false_eq_true, lossyDecode_nil],
          scalar3_aux (by omega) h4 hv hc2, by simp; omega⟩
      · exact ⟨0xFFFD, b2 :: r2,
          by simp only [h1, h2, h3, h4, hv, hc2, ite_true, ite_false, Bool.false_eq_true, lossyDecode_nil], by decide, by simp⟩
    · exact ⟨0xFFFD, b1 :: r,
        by simp only [h1, h2, h3, h4, hv, ite_true, ite_false, Bool.false_eq_true, lossyDecode_nil], by decide, by simp⟩
  by_cases h5 : b < 0xF5
  · rcases rest with _ | ⟨b1, r⟩
    · exact ⟨0xFFFD, [], by simp only [h1, h2, h3, h4, h5, ite_true, ite_false, Bool.false_eq_true, lossyDecode_nil],
        by decide, by simp⟩
    by_cases hv : valid2nd b b1
    · rcases r with _ | ⟨b2, r2⟩
      · exact ⟨0xFFFD, [], by simp only [h1, h2, h3, h4, h5, hv, ite_true, ite_false, Bool.false_eq_true, lossyDecode_nil],
          by decide, by simp⟩
      by_cases hc2 : isCont b2
      · rcases r2 with _ | ⟨b3, r3⟩
        · exact ⟨0xFFFD, [], by simp only [h1, h2, h3, h4, h5, hv, hc2, ite_true, ite_false, Bool.false_eq_true, lossyDecode_nil],
            by decide, by simp⟩
        by_cases hc3 : isCont b3
        · exact ⟨(b - 0xF0) * 262144 + (b1 - 0x80) * 4096 + (b2 - 0x80) * 64 + (b3 - 0x80), r3,
            by simp only [h1, h2, h3, h4, h5, hv, hc2, hc3, ite_true, ite_false, Bool.false_eq_true, lossyDecode_nil],
            scalar4_aux (by omega) h5 hv hc2 hc3, by simp; omega⟩
        · exact ⟨0xFFFD, b3 :: r3,
            by simp only [h1, h2, h3, h4, h5, hv, hc2, hc3, ite_true, ite_false, Bool.false_eq_true, lossyDecode_nil],
            by decide, by simp⟩
      · exact ⟨0xFFFD, b2 :: r2,
          by simp only [h1, h2, h3, h4, h5, hv, hc2, ite_true, ite_false, Bool.false_eq_true, lossyDecode_nil], by decide, by simp⟩
    · exact ⟨0xFFFD, b1 :: r,
        by simp only [h1, h2, h3, h4, h5, hv, ite_true, ite_false, Bool.false_eq_true, lossyDecode_nil], by decide, by simp⟩
  · exact ⟨0xFFFD, rest, by simp only [h1, h2, h3, h4, h5, ite_true, ite_false, Bool.false_eq_true, lossyDecode_nil],
      by decide, Nat.le_refl _⟩

theorem lossyDecode_scalar (bs : List Nat) : ∀ c ∈ lossyDecode bs, scalarChar c = true := by
  generalize h : bs.length = n
  induction n using Nat.strong_induction_on generalizing bs with
  | _ n ih =>
    rcases bs with _ | ⟨b, rest⟩
    · intro c hc
      simp [lossyDecode] at hc
    obtain ⟨v, rest', heq, hv, hlen⟩ := lossyDecode_step b rest
    intro c hc
    rw [heq] at hc
    rcases List.mem_cons.mp hc with rfl | hc
    · exact hv
    · exact ih rest'.length (by simp at h; omega) rest' rfl c hc

theorem splitNl_ne_nil (cs : List Nat) : splitNl cs ≠ [] := by
  rcases cs with _ | ⟨c, rest⟩
  · simp [splitNl]
  · rw [splitNl.eq_def]
    by_cases h : c = 10
    · simp [h]
    · simp only [h, ite_false]
      rcases hsp : splitNl rest with _ | ⟨l, ls⟩ <;> simp

theorem joinNl_splitNl (cs : List Nat) : joinNl (splitNl cs) = cs := by
  induction cs with
  | nil => rfl
  | cons c rest ih =>
    rw [splitNl.eq_def]
    by_cases h : c = 10
    · subst h
      simp only [ite_true]
      rcases hsp : splitNl rest with _ | ⟨l, ls⟩
      · exact absurd hsp (splitNl_ne_nil rest)
      · rw [← hsp]
        rw [show joinNl ([] :: splitNl rest) = [] ++ 10 :: joinNl (splitNl rest) from by
          rw [hsp]; rfl]
        rw [ih]
        rfl
    · simp only [h, ite_false]
      rcases hsp : splitNl rest with _ | ⟨l, ls⟩
      · exact absurd hsp (splitNl_ne_nil rest)
      rw [hsp] at ih
      rcases ls with _ | ⟨l2, ls2⟩
      · show joinNl [c :: l] = c :: rest
        rw [show joinNl [c :: l] = c :: l from rfl]
        rw [show joinNl [l] = l from rfl] at ih
        rw [ih]
      · show joinNl ((c :: l) :: l2 :: ls2) = c :: rest
        rw [show joinNl ((c :: l) :: l2 :: ls2) = (c :: l) ++ 10 :: joinNl (l2 :: ls2) from rfl]
        rw [show joinNl (l :: l2 :: ls2) = l ++ 10 :: joinNl (l2 :: ls2) from rfl] at ih
        rw [← ih]
        rfl

theorem mem_of_mem_splitNl {x : Nat} {l : List Nat} (cs : List Nat)
    (hl : l ∈ splitNl cs) (hx : x ∈ l) : x ∈ cs := by
  induction cs generalizing l with
  | nil =>
    simp [splitNl] at hl
    subst hl
    simp at hx
  | cons c rest ih =>
    rw [splitNl.eq_def] at hl
    by_cases h : c = 10
    · simp only [h, ite_true] at hl
      subst h
      rcases List.mem_cons.mp hl with rfl | hl
      · simp at hx
      · exact List.mem_cons_of_mem _ (ih hl hx)
    · simp only [h, ite_false] at hl
      rcases hsp : splitNl rest with _ | ⟨l0, ls⟩
      · exact absurd hsp (splitNl_ne_nil rest)
      rw [hsp] at hl
      rcases List.mem_cons.mp hl with rfl | hl
      · rcases List.mem_cons.mp hx with rfl | hx
        · exact List.mem_cons_self _ _
        · exact List.mem_cons_of_mem _ (ih (by rw [hsp]; exact List.mem_cons_self _ _) hx)
      · exact List.mem_cons_of_mem _ (ih (by rw [hsp]; exact List.mem_cons_of_mem _ hl) hx)

theorem degraded_filter_keeps (bs : List Nat) :
    (splitNl (lossyDecode bs)).filter (fun l => utf8Valid (utf8EncodeList l))
      = splitNl (lossyDecode bs) := by
  rw [List.filter_eq_self]
  intro l hl
  exact utf8Valid_encodeList fun c hc => lossyDecode_scalar bs c (mem_of_mem_splitNl _ hl hc)

theorem degraded_eq (bs : List Nat) : degraded bs = utf8EncodeList (lossyDecode bs) := by
  unfold degraded
  rw [degraded_filter_keeps, joinNl_splitNl]

theorem utf8Valid_renderFrag (bs : List Nat) : utf8Valid (renderFrag bs) = true := by
  unfold renderFrag
  by_cases h : utf8Valid bs
  · rwa [if_pos h]
  · rw [if_neg h, degraded_eq]
    exact utf8Valid_encodeList (lossyDecode_scalar bs)

theorem renderFrag_valid {bs : List Nat} (h : utf8Valid bs = true) : renderFrag bs = bs := by
  unfold renderFrag
  rw [if_pos h]

theorem isCont_not_boundary {x : Nat} (h : isCont x = true) : isBoundary x = false := by
  simp only [isCont, Bool.and_eq_true, decide_eq_true_eq] at h
  rw [isBoundary_eq_false_iff]
  omega

theorem splitLast_eq_none {l : List Nat} (h : ∀ x ∈ l, isBoundary x = false) :
    splitLast l = none := by
  induction l with
  | nil => rfl
  | cons x xs ih =>
    rw [splitLast.eq_def]
    show (match splitLast xs with
      | some (p, b, s) => some (x :: p, b, s)
      | none => if isBoundary x then some ([], x, xs) else none) = none
    rw [ih fun y hy => h y (List.mem_cons_of_mem x hy)]
    show (if isBoundary x then _ else none) = none
    rw [h x (List.mem_cons_self x xs)]
    rfl

theorem splitLast_append {pre suf : List Nat} {b : Nat}
    (hb : isBoundary b = true) (hs : ∀ x ∈ suf, isBoundary x = false) :
    splitLast (pre ++ b :: suf) = some (pre, b, suf) := by
  induction pre with
  | nil =>
    rw [List.nil_append, splitLast.eq_def]
    show (match splitLast suf with
      | some (p, q, s) => some (b :: p, q, s)
      | none => if isBoundary b then some ([], b, suf) else none) = some ([], b, suf)
    rw [splitLast_eq_none hs]
    show (if isBoundary b then _ else _) = _
    rw [hb]
    rfl
  | cons x p ih =>
    rw [List.cons_append, splitLast.eq_def]
    show (match splitLast (p ++ b :: suf) with
      | some (q, w, s) => some (x :: q, w, s)
      | none => if isBoundary x then some ([], x, p ++ b :: suf) else none)
      = some (x :: p, b, suf)
    rw [ih]

theorem utf8EncodeChar_parts {c : Nat} (h : scalarChar c = true) :
    ∃ b0 t, utf8EncodeChar c = b0 :: t ∧ isBoundary b0 = true ∧
      (∀ x ∈ t, isBoundary x = false) ∧ (b0 < 0x80 ↔ c < 0x80) := by
  simp only [scalarChar, Bool.or_eq_true, Bool.and_eq_true, decide_eq_true_eq] at h
  rcases Nat.lt_or_ge c 0x80 with h1 | h1
  · exact ⟨c, [], utf8EncodeChar_ascii h1, by rw [isBoundary_iff]; omega, by simp, by omega⟩
  rcases Nat.lt_or_ge c 0x800 with h2 | h2
  · refine ⟨0xC0 + c / 64, [0x80 + c % 64], ?_, ?_, ?_, by omega⟩
    · unfold utf8EncodeChar
      rw [if_neg (by omega), if_pos h2]
    · rw [isBoundary_iff]
      omega
    · intro x hx
      simp only [List.mem_singleton] at hx
      subst hx
      rw [isBoundary_eq_false_iff]
      omega
  rcases Nat.lt_or_ge c 0x10000 with h3 | h3
  · refine ⟨0xE0 + c / 4096, [0x80 + c / 64 % 64, 0x80 + c % 64], ?_, ?_, ?_, by omega⟩
    · unfold utf8EncodeChar
      rw [if_neg (by omega), if_neg (by omega), if_pos h3]
    · rw [isBoundary_iff]
      omega
    · intro x hx
      simp only [List.mem_cons, List.mem_singleton, List.not_mem_nil, or_false] at hx
      rw [isBoundary_eq_false_iff]
      rcases hx with rfl | rfl <;> omega
  · refine ⟨0xF0 + c / 262144,
      [0x80 + c / 4096 % 64, 0x80 + c / 64 % 64, 0x80 + c % 64], ?_, ?_, ?_, by omega⟩
    · unfold utf8EncodeChar
      rw [if_neg (by omega), if_neg (by omega), if_neg (by omega)]
    · rw [isBoundary_iff]
      omega
    · intro x hx
      simp only [List.mem_cons, List.mem_singleton, List.not_mem_nil, or_false] at hx
      rw [isBoundary_eq_false_iff]
      rcases hx with rfl | rfl | rfl <;> omega

theorem Source.read_empty {s : Source} (h : s.data = []) (req : Nat) :
    s.read req = (if s.errs then none else some [], s) := by
  unfold Source.read
  rw [h]

theorem Source.read_more {s : Source} (h : s.data ≠ []) (req : Nat) :
    s.read req = (some (s.data.take (min (min s.chunk req) s.data.length)),
      ⟨s.chunk, s.data.drop (min (min s.chunk req) s.data.length), s.errs⟩) := by
  unfold Source.read
  rcases hd : s.data with _ | ⟨x, xs⟩
  · exact absurd hd h
  · rfl

theorem streamLoop_panicked (fuel : Nat) (src : Source) (acc : List (List Nat)) :
    streamLoop (fuel + 1) src [] acc = (.panicked acc, src) := rfl

theorem streamLoop_guard {buf : List Nat} (fuel : Nat) (src : Source) (acc : List (List Nat))
    (hne : buf ≠ []) (h : splitLast buf = none) :
    streamLoop (fuel + 1) src buf acc = (.guard acc, src) := by
  simp only [streamLoop]
  rw [h, List.isEmpty_eq_false.mpr hne]
  simp only [Bool.false_eq_true, ite_false]

theorem streamLoop_step_ascii {src : Source} {buf pre suf : List Nat} {b : Nat}
    {acc : List (List Nat)} (fuel : Nat)
    (hsplit : splitLast buf = some (pre, b, suf)) (hb : b < 0x80)
    {got? : Option (List Nat)} {src' : Source}
    (hread : src.read BUFFER_SIZE = (got?, src')) :
    streamLoop (fuel + 1) src buf acc =
      if (got?.getD []).isEmpty then (.done (acc ++ [renderFrag (pre ++ [b])]), src')
      else streamLoop fuel src' (got?.getD []) (acc ++ [renderFrag (pre ++ [b])]) := by
  have hne : buf ≠ [] := by
    intro hnil
    rw [hnil] at hsplit
    simp [splitLast] at hsplit
  simp only [streamLoop]
  rw [hsplit, List.isEmpty_eq_false.mpr hne]
  simp only [Bool.false_eq_true, ite_false]
  rw [(shift7_beq_true_iff b).mpr hb, hread]
  simp only [ite_true]

theorem streamLoop_step_multi {src : Source} {buf pre suf : List Nat} {b : Nat}
    {acc : List (List Nat)} (fuel : Nat)
    (hsplit : splitLast buf = some (pre, b, suf)) (hb : 0x80 ≤ b)
    {got? : Option (List Nat)} {src' : Source}
    (hread : src.read (BUFFER_SIZE - (b :: suf).length) = (got?, src')) :
    streamLoop (fuel + 1) src buf acc =
      if (got?.getD []).isEmpty then (.done (acc ++ [renderFrag pre]), src')
      else streamLoop fuel src' ((b :: suf) ++ got?.getD []) (acc ++ [renderFrag pre]) := by
  have hne : buf ≠ [] := by
    intro hnil
    rw [hnil] at hsplit
    simp [splitLast] at hsplit
  simp only [streamLoop]
  rw [hsplit, List.isEmpty_eq_false.mpr hne]
  simp only [Bool.false_eq_true, ite_false]
  rw [(shift7_beq_false_iff b).mpr hb, hread]
  simp only [ite_false, Bool.false_eq_true]

theorem utf8EncodeList_length_pos {cs : List Nat} (h : cs ≠ []) :
    0 < (utf8EncodeList cs).length := by
  rcases cs with _ | ⟨c, cs⟩
  · exact absurd rfl h
  · rw [utf8EncodeList_cons, List.length_append]
    rcases hx : utf8EncodeChar c with _ | ⟨y, ys⟩
    · exact absurd hx (utf8EncodeChar_ne_nil c)
    · simp

theorem utf8EncodeList_eq_nil_iff (cs : List Nat) : utf8EncodeList cs = [] ↔ cs = [] := by
  constructor
  · intro h
    rcases cs with _ | ⟨c, cs⟩
    · rfl
    · rw [utf8EncodeList_cons] at h
      rcases List.append_eq_nil.mp h with ⟨h1, h2⟩
      exact absurd h1 (utf8EncodeChar_ne_nil c)
  · intro h
    rw [h]
    rfl

theorem encodeList_take_decomp (cs : List Nat) (m : Nat)
    (h1 : 1 ≤ m) (h2 : m ≤ (utf8EncodeList cs).length) :
    ∃ ws p qs j, cs = ws ++ p :: qs ∧ 1 ≤ j ∧ j ≤ (utf8EncodeChar p).length ∧
      (utf8EncodeList cs).take m = utf8EncodeList ws ++ (utf8EncodeChar p).take j ∧
      (utf8EncodeList cs).drop m = (utf8EncodeChar p).drop j ++ utf8EncodeList qs := by
  induction cs generalizing m with
  | nil =>
    rw [show utf8EncodeList [] = [] from rfl] at h2
    simp at h2
    omega
  | cons c cst ih =>
    rw [utf8EncodeList_cons] at h2 ⊢
    by_cases hm : m ≤ (utf8EncodeChar c).length
    · refine ⟨[], c, cst, m, rfl, h1, hm, ?_, ?_⟩
      · rw [List.take_append_of_le_length hm]
        rfl
      · rw [List.drop_append_of_le_length hm]
    · push_neg at hm
      have h2' : m - (utf8EncodeChar c).length ≤ (utf8EncodeList cst).length := by
        rw [List.length_append] at h2
        omega
      obtain ⟨ws, p, qs, j, hcs, hj1, hj2, htake, hdrop⟩ :=
        ih (m - (utf8EncodeChar c).length) (by omega) h2'
      refine ⟨c :: ws, p, qs, j, by simp [hcs], hj1, hj2, ?_, ?_⟩
      · rw [List.take_append_eq_append_take, List.take_of_length_le (by omega), htake,
          utf8EncodeList_cons, List.append_assoc]
      · rw [List.drop_append_eq_append_drop, List.drop_eq_nil_of_le (by omega), hdrop,
          List.nil_append]

theorem trimChars_concat (as : List Nat) (c : Nat) :
    trimChars (as ++ [c]) = if c < 0x80 then as ++ [c] else as := by
  unfold trimChars
  rw [List.getLast?_concat]
  show (if c < 0x80 then as ++ [c] else (as ++ [c]).dropLast) = _
  by_cases h : c < 0x80
  · rw [if_pos h, if_pos h]
  · rw [if_neg h, if_neg h, List.dropLast_concat]

theorem trimChars_append {as bs : List Nat} (h : bs ≠ []) :
    trimChars (as ++ bs) = as ++ trimChars bs := by
  induction bs using List.reverseRecOn with
  | nil => exact absurd rfl h
  | append_singleton bs' c ih =>
    rw [← List.append_assoc, trimChars_concat, trimChars_concat]
    by_cases hc : c < 0x80
    · rw [if_pos hc, if_pos hc, List.append_assoc]
    · rw [if_neg hc, if_neg hc]

theorem take_add_append {X Y : List Nat} {j n : Nat} (hj : j ≤ X.length) :
    X.take j ++ (X.drop j ++ Y).take n = (X ++ Y).take (j + n) := by
  rw [@List.take_append_eq_append_take _ (X.drop j) Y n,
    @List.take_append_eq_append_take _ X Y (j + n)]
  rw [List.length_drop, ← List.append_assoc]
  rw [show X.take j ++ (X.drop j).take n = X.take (j + n) from (List.take_add X j n).symm]
  congr 2
  all_goals omega

theorem drop_add_append {X Y : List Nat} {j n : Nat} (hj : j ≤ X.length) :
    (X.drop j ++ Y).drop n = (X ++ Y).drop (j + n) := by
  rw [@List.drop_append_eq_append_drop _ (X.drop j) Y n,
    @List.drop_append_eq_append_drop _ X Y (j + n)]
  rw [List.length_drop, List.drop_drop]
  congr 2
  all_goals omega

theorem getD_read_empty (e : Bool) :
    ((if e = true then none else some ([] : List Nat)).getD []) = [] := by
  rcases e <;> rfl

theorem streamLoop_valid (fuel : Nat) :
    ∀ (src : Source) (ws qs : List Nat) (p j : Nat) (acc : List (List Nat)),
    (∀ c ∈ ws, scalarChar c = true) → scalarChar p = true →
    (∀ c ∈ qs, scalarChar c = true) →
    1 ≤ j → j ≤ (utf8EncodeChar p).length →
    src.data = (utf8EncodeChar p).drop j ++ utf8EncodeList qs →
    1 ≤ src.chunk →
    src.data.length + 1 ≤ fuel →
    ∃ (css : List (List Nat)) (src' : Source),
      streamLoop fuel src (utf8EncodeList ws ++ (utf8EncodeChar p).take j) acc
        = (.done (acc ++ css.map utf8EncodeList), src') ∧
      css.flatten = trimChars (ws ++ p :: qs) := by
  induction fuel with
  | zero =>
    intro src ws qs p j acc _ _ _ _ _ _ _ hfuel
    omega
  | succ fuel ih =>
    intro src ws qs p j acc hws hp hqs hj1 hj2 hdata hchunk hfuel
    have hB : BUFFER_SIZE = 8192 := rfl
    obtain ⟨b0, t, henc, hb0, ht, hbiff⟩ := utf8EncodeChar_parts hp
    have hlenenc : (utf8EncodeChar p).length = t.length + 1 := by
      rw [henc]
      rfl
    have htakej : (utf8EncodeChar p).take j = b0 :: t.take (j - 1) := by
      rw [henc]
      rcases j with _ | j'
      · omega
      · rw [List.take_succ_cons]
        simp
    have hsplit : splitLast (utf8EncodeList ws ++ (utf8EncodeChar p).take j)
        = some (utf8EncodeList ws, b0, t.take (j - 1)) := by
      rw [htakej]
      exact splitLast_append hb0 fun x hx => ht x (List.take_subset _ _ hx)
    by_cases hascii : p < 0x80
    · -- ASCII last character: the whole buffer is emitted and nothing is carried
      have henc' : utf8EncodeChar p = [p] := utf8EncodeChar_ascii hascii
      have hpt : p = b0 ∧ ([] : List Nat) = t :=
        (List.cons.injEq p [] b0 t).mp (henc'.symm.trans henc)
      rw [← hpt.1] at hsplit
      rw [← hpt.2] at hsplit
      simp only [List.take_nil] at hsplit
      have heqcat : utf8EncodeList (ws ++ [p]) = utf8EncodeList ws ++ [p] := by
        rw [utf8EncodeList_append, utf8EncodeList_cons, utf8EncodeList_nil, henc',
          List.append_nil]
      have hvalid : utf8Valid (utf8EncodeList ws ++ [p]) = true := by
        rw [← heqcat]
        refine utf8Valid_encodeList fun c hc => ?_
        rcases List.mem_append.mp hc with h | h
        · exact hws c h
        · rw [List.mem_singleton] at h
          subst h
          exact hp
      have hfrag : renderFrag (utf8EncodeList ws ++ [p]) = utf8EncodeList (ws ++ [p]) := by
        rw [renderFrag_valid hvalid, heqcat]
      have hdata' : src.data = utf8EncodeList qs := by
        rw [hdata, henc', List.drop_of_length_le (by simp; omega), List.nil_append]
      by_cases hqnil : qs = []
      · -- the stream ends here; the ASCII character was emitted, nothing is lost
        have hdnil : src.data = [] := by
          rw [hdata', hqnil]
          rfl
        have hread := Source.read_empty hdnil BUFFER_SIZE
        refine ⟨[ws ++ [p]], src, ?_, ?_⟩
        · rw [streamLoop_step_ascii fuel hsplit hascii hread, getD_read_empty]
          rw [show ([] : List Nat).isEmpty = true from rfl, if_pos rfl]
          simp only [List.map_cons, List.map_nil, hfrag]
        · rw [hqnil]
          simp only [List.flatten, List.append_nil]
          rw [show (ws ++ p :: [] : List Nat) = ws ++ [p] from rfl, trimChars_concat,
            if_pos hascii]
      · -- more input follows: read a chunk and continue with the next characters
        have hdne : src.data ≠ [] := by
          rw [hdata']
          intro hx
          exact hqnil ((utf8EncodeList_eq_nil_iff qs).mp hx)
        have hdpos : 0 < src.data.length := List.length_pos.mpr hdne
        have hread := Source.read_more hdne BUFFER_SIZE
        set n := min (min src.chunk BUFFER_SIZE) src.data.length with hn
        have hn1 : 1 ≤ n := by
          rw [hn]
          omega
        have hn2 : n ≤ src.data.length := by
          rw [hn]
          omega
        have hnlen : n ≤ (utf8EncodeList qs).length := by
          rw [← hdata']
          exact hn2
        obtain ⟨ws2, p2, qs2, j2, hqs2, hj21, hj22, htake2, hdrop2⟩ :=
          encodeList_take_decomp qs n hn1 hnlen
        obtain ⟨css2, src'', hs2, hf2⟩ := ih ⟨src.chunk, src.data.drop n, src.errs⟩ ws2 qs2 p2 j2
          (acc ++ [utf8EncodeList (ws ++ [p])])
          (fun c hc => hqs c (by rw [hqs2]; exact List.mem_append.mpr (Or.inl hc)))
          (hqs p2 (by rw [hqs2]; simp))
          (fun c hc => hqs c (by rw [hqs2]; simp [hc]))
          hj21 hj22
          (by show src.data.drop n = _; rw [hdata']; exact hdrop2)
          hchunk
          (by simp only [List.length_drop]; omega)
        have hgotne : src.data.take n ≠ [] := by
          intro hx
          rw [List.take_eq_nil_iff] at hx
          rcases hx with hx | hx
          · omega
          · exact hdne hx
        refine ⟨(ws ++ [p]) :: css2, src'', ?_, ?_⟩
        · rw [streamLoop_step_ascii fuel hsplit hascii hread]
          rw [show (some (src.data.take n)).getD [] = src.data.take n from rfl]
          rw [List.isEmpty_eq_false.mpr hgotne, if_neg (by simp)]
          rw [hfrag]
          rw [show src.data.take n = utf8EncodeList ws2 ++ (utf8EncodeChar p2).take j2 from by
            rw [hdata']; exact htake2]
          rw [hs2]
          simp [List.map_cons, List.append_assoc]
        · rw [show ((ws ++ [p]) :: css2).flatten = (ws ++ [p]) ++ css2.flatten from rfl, hf2,
            ← hqs2, ← trimChars_append hqnil]
          congr 1
          simp
    · -- multi-byte boundary byte: the buffer before it is emitted, it is carried
      have hb0ge : 0x80 ≤ b0 := by
        rcases Nat.lt_or_ge b0 0x80 with hlt | hge
        · exact absurd (hbiff.mp hlt) hascii
        · exact hge
      have hfragw : renderFrag (utf8EncodeList ws) = utf8EncodeList ws :=
        renderFrag_valid (utf8Valid_encodeList hws)
      have hcarrylen : (b0 :: t.take (j - 1)).length = j := by
        simp only [List.length_cons, List.length_take]
        omega
      by_cases hdnil : src.data = []
      · -- stream exhausted with a carried character: it is dropped by the break
        have hjq : (utf8EncodeChar p).drop j = [] ∧ utf8EncodeList qs = [] := by
          rw [hdnil] at hdata
          exact List.append_eq_nil.mp hdata.symm
        have hqsnil : qs = [] := (utf8EncodeList_eq_nil_iff qs).mp hjq.2
        have hread := Source.read_empty hdnil (BUFFER_SIZE - (b0 :: t.take (j - 1)).length)
        refine ⟨[ws], src, ?_, ?_⟩
        · rw [streamLoop_step_multi fuel hsplit hb0ge hread, getD_read_empty]
          rw [show ([] : List Nat).isEmpty = true from rfl, if_pos rfl]
          simp only [List.map_cons, List.map_nil, hfragw]
        · rw [hqsnil]
          simp only [List.flatten, List.append_nil]
          rw [show (ws ++ p :: [] : List Nat) = ws ++ [p] from rfl, trimChars_concat,
            if_neg hascii]
      · -- data remains: append the next chunk after the carried tail and continue
        have hdpos : 0 < src.data.length := List.length_pos.mpr hdnil
        have hread := Source.read_more hdnil (BUFFER_SIZE - (b0 :: t.take (j - 1)).length)
        set n := min (min src.chunk (BUFFER_SIZE - (b0 :: t.take (j - 1)).length))
          src.data.length with hn
        have hreqpos : 1 ≤ BUFFER_SIZE - (b0 :: t.take (j - 1)).length := by
          rw [hcarrylen, hB]
          have := utf8EncodeChar_length_le p
          omega
        have hn1 : 1 ≤ n := by
          rw [hn]
          omega
        have hn2 : n ≤ src.data.length := by
          rw [hn]
          omega
        have hdatalen : src.data.length
            = ((utf8EncodeChar p).length - j) + (utf8EncodeList qs).length := by
          rw [hdata, List.length_append, List.length_drop]
        have hjn : j + n ≤ (utf8EncodeList (p :: qs)).length := by
          rw [utf8EncodeList_cons, List.length_append]
          omega
        obtain ⟨ws3, p3, qs3, j3, hpqs3, hj31, hj32, htake3, hdrop3⟩ :=
          encodeList_take_decomp (p :: qs) (j + n) (by omega) hjn
        have hpqs_scalar : ∀ c ∈ p :: qs, scalarChar c = true := by
          intro c hc
          rcases List.mem_cons.mp hc with rfl | hc
          · exact hp
          · exact hqs c hc
        have hbuf' : (b0 :: t.take (j - 1)) ++ src.data.take n
            = utf8EncodeList ws3 ++ (utf8EncodeChar p3).take j3 := by
          rw [← htakej, hdata, take_add_append hj2, ← utf8EncodeList_cons]
          exact htake3
        have hdrop' : src.data.drop n = (utf8EncodeChar p3).drop j3 ++ utf8EncodeList qs3 := by
          rw [hdata, drop_add_append hj2, ← utf8EncodeList_cons]
          exact hdrop3
        obtain ⟨css3, src'', hs3, hf3⟩ := ih ⟨src.chunk, src.data.drop n, src.errs⟩ ws3 qs3 p3 j3
          (acc ++ [utf8EncodeList ws])
          (fun c hc => hpqs_scalar c (by rw [hpqs3]; exact List.mem_append.mpr (Or.inl hc)))
          (hpqs_scalar p3 (by rw [hpqs3]; simp))
          (fun c hc => hpqs_scalar c (by rw [hpqs3]; simp [hc]))
          hj31 hj32 hdrop' hchunk
          (by simp only [List.length_drop]; omega)
        have hgotne : src.data.take n ≠ [] := by
          intro hx
          rw [List.take_eq_nil_iff] at hx
          rcases hx with hx | hx
          · omega
          · exact hdnil hx
        refine ⟨ws :: css3, src'', ?_, ?_⟩
        · rw [streamLoop_step_multi fuel hsplit hb0ge hread]
          rw [show (some (src.data.take n)).getD [] = src.data.take n from rfl]
          rw [List.isEmpty_eq_false.mpr hgotne, if_neg (by simp)]
          rw [hfragw, hbuf', hs3]
          simp [List.map_cons, List.append_assoc]
        · rw [show (ws :: css3).flatten = ws ++ css3.flatten from rfl, hf3, ← hpqs3,
            trimChars_append (List.cons_ne_nil p qs)]

theorem utf8EncodeList_flatten (css : List (List Nat)) :
    (css.map utf8EncodeList).flatten = utf8EncodeList css.flatten := by
  induction css with
  | nil => rfl
  | cons l ls ih =>
    rw [List.map_cons, List.flatten_cons, List.flatten_cons, utf8EncodeList_append, ih]

theorem renderStream_valid (cs : List Nat) (k : Nat)
    (hs : ∀ c ∈ cs, scalarChar c = true) (hne : cs ≠ []) (hk : 1 ≤ k) :
    ∃ (css : List (List Nat)) (src' : Source),
      renderStream k (utf8EncodeList cs) = (.done (css.map utf8EncodeList), src') ∧
      css.flatten = trimChars cs := by
  have hdne : (⟨k, utf8EncodeList cs, false⟩ : Source).data ≠ [] := by
    intro hx
    exact hne ((utf8EncodeList_eq_nil_iff cs).mp hx)
  have hread := Source.read_more hdne MAGIC_BYTES_SIZE
  have hM : MAGIC_BYTES_SIZE = 512 := rfl
  have hlpos : 0 < (utf8EncodeList cs).length := utf8EncodeList_length_pos hne
  set n := min (min k MAGIC_BYTES_SIZE) (utf8EncodeList cs).length with hn
  have hn1 : 1 ≤ n := by
    rw [hn]
    omega
  have hn2 : n ≤ (utf8EncodeList cs).length := by
    rw [hn]
    omega
  obtain ⟨ws, p, qs, j, hcs, hj1, hj2, htake, hdrop⟩ := encodeList_take_decomp cs n hn1 hn2
  obtain ⟨css, src', hloop, hflat⟩ := streamLoop_valid
    (((utf8EncodeList cs).drop n).length + 1)
    ⟨k, (utf8EncodeList cs).drop n, false⟩ ws qs p j []
    (fun c hc => hs c (by rw [hcs]; exact List.mem_append.mpr (Or.inl hc)))
    (hs p (by rw [hcs]; simp))
    (fun c hc => hs c (by rw [hcs]; simp [hc]))
    hj1 hj2 hdrop hk (Nat.le_refl _)
  refine ⟨css, src', ?_, by rw [hflat, hcs]⟩
  simp only [renderStream, hread]
  rw [htake, hloop]
  rw [List.nil_append]

theorem streamLoop_frags_valid (fuel : Nat) :
    ∀ (src : Source) (buf : List Nat) (acc : List (List Nat)),
    (∀ f ∈ acc, utf8Valid f = true) →
    ∀ f ∈ (streamLoop fuel src buf acc).1.frags, utf8Valid f = true := by
  induction fuel with
  | zero =>
    intro src buf acc hacc f hf
    exact hacc f hf
  | succ fuel ih =>
    intro src buf acc hacc f hf
    simp only [streamLoop] at hf
    split at hf
    · exact hacc f hf
    · split at hf
      · exact hacc f hf
      · split at hf
        · split at hf
          · simp only [StreamOut.frags] at hf
            rcases List.mem_append.mp hf with h | h
            · exact hacc f h
            · rw [List.mem_singleton] at h
              subst h
              exact utf8Valid_renderFrag _
          · refine ih _ _ _ (fun g hg => ?_) f hf
            rcases List.mem_append.mp hg with h | h
            · exact hacc g h
            · rw [List.mem_singleton] at h
              subst h
              exact utf8Valid_renderFrag _
        · split at hf
          · simp only [StreamOut.frags] at hf
            rcases List.mem_append.mp hf with h | h
            · exact hacc f h
            · rw [List.mem_singleton] at h
              subst h
              exact utf8Valid_renderFrag _
          · refine ih _ _ _ (fun g hg => ?_) f hf
            rcases List.mem_append.mp hg with h | h
            · exact hacc g h
            · rw [List.mem_singleton] at h
              subst h
              exact utf8Valid_renderFrag _

theorem display_frags_valid (sniff : List Nat → Option (List Nat)) (src : Source)
    (f : List Nat) (hf : f ∈ (display_file_content sniff src).1.contentFrags) :
    utf8Valid f = true := by
  simp only [display_file_content] at hf
  split at hf
  · simp [RenderOut.contentFrags] at hf
  · split at hf
    · split at hf
      · simp only [RenderOut.contentFrags] at hf
        exact streamLoop_frags_valid _ _ _ _ (by simp) f hf
      · simp [RenderOut.contentFrags] at hf
    · simp only [RenderOut.contentFrags] at hf
      exact streamLoop_frags_valid _ _ _ _ (by simp) f hf

/-! ## The claims -/

/-- C1, as stated, is false: the renderer's streaming phase does not return
the input text itself for every valid UTF-8 input.  For the valid one-character
input U+20AC (bytes `E2 82 AC`), rendered whole-buffer-at-once, the
concatenated output is empty: the backward scan excludes the final multi-byte
lead byte and everything after it, the carry is then discarded at end of
stream, so the final character is lost. -/
theorem c1_counterexample :
    utf8Valid [0xE2, 0x82, 0xAC] = true ∧
    [0xE2, 0x82, 0xAC] = utf8EncodeList [0x20AC] ∧
    (renderStream 8192 [0xE2, 0x82, 0xAC]).1.frags.flatten = [] ∧
    (renderStream 8192 [0xE2, 0x82, 0xAC]).1.frags.flatten ≠ [0xE2, 0x82, 0xAC] := by
  decide

/-- C1 (amended): for every non-empty valid UTF-8 input (the encoding of
scalar values `cs`) and every chunk size `k ≥ 1` — covering 1, 2, 3, 4, 8192
and whole-buffer-at-once — the streaming phase terminates normally and the
concatenated output is `utf8EncodeList (trimChars cs)`, which does not
depend on `k`: the input text itself when its final character is
single-byte, and the input minus its final character when that character is
multi-byte. -/
theorem c1_amended_chunk_invariance (cs : List Nat) (k : Nat)
    (hs : ∀ c ∈ cs, scalarChar c = true) (hne : cs ≠ []) (hk : 1 ≤ k) :
    (renderStream k (utf8EncodeList cs)).1.isDone = true ∧
    (renderStream k (utf8EncodeList cs)).1.frags.flatten
      = utf8EncodeList (trimChars cs) := by
  obtain ⟨css, src', heq, hf⟩ := renderStream_valid cs k hs hne hk
  rw [heq]
  refine ⟨rfl, ?_⟩
  show (css.map utf8EncodeList).flatten = _
  rw [utf8EncodeList_flatten, hf]

/-- C1 witness: the amended theorem applied to the input "H€!" at chunk
size 2. -/
theorem c1_amended_chunk_invariance_witness :
    (renderStream 2 (utf8EncodeList [72, 8364, 33])).1.isDone = true ∧
    (renderStream 2 (utf8EncodeList [72, 8364, 33])).1.frags.flatten
      = utf8EncodeList (trimChars [72, 8364, 33]) :=
  c1_amended_chunk_invariance [72, 8364, 33] 2 (by decide) (by decide) (by decide)

/-- C2 (confirmed): for every input byte stream (any data, any chunking, with
or without a trailing read error), every sniffing function and every outcome
(normal completion, the defensive `return`, the empty-buffer panic, the
fixed notice), every content fragment `display_file_content` emits is valid
UTF-8 — no fragment ends in the middle of a multi-byte UTF-8 sequence and no
partial multi-byte character is ever written to the output sink. -/
theorem c2_no_partial_character (sniff : List Nat → Option (List Nat)) (src : Source)
    (f : List Nat) (hf : f ∈ (display_file_content sniff src).1.contentFrags) :
    utf8Valid f = true :=
  display_frags_valid sniff src f hf

/-- C2 witness: the single fragment emitted for the one-byte input `A`. -/
theorem c2_no_partial_character_witness : utf8Valid [0x41] = true :=
  c2_no_partial_character infer_get ⟨8192, [0x41], false⟩ [0x41] (by decide)

/-- C3 evaluation at the failing input: a zero-length stream does not render
with no content and no error — the streaming phase is entered (the empty
window is unclassified, hence previewable-by-default) and the loop
immediately hits the `read_bytes - 1` underflow on `usize`, a panic, before
emitting anything.  The claim describes the intended behaviour; the code
panics. -/
theorem c3_empty_stream_panics :
    display_file_content infer_get ⟨8192, [], false⟩
      = (.streamed (.panicked []), ⟨8192, [], false⟩) := by
  decide

/-- C4, as stated, is false: a read failure during the streaming phase is
not propagated to the caller.  For a source that delivers `abc` in chunks of
2 and then reports an I/O error, the renderer completes normally
(`unwrap_or(0)` turns the error into a zero-byte read, i.e. end-of-stream),
emitting the full text. -/
theorem c4_counterexample :
    display_file_content infer_get ⟨2, [0x61, 0x62, 0x63], true⟩
      = (.streamed (.done [[0x61, 0x62], [0x63]]), ⟨2, [], true⟩) := by
  decide

/-- C4 (amended): a read failure during the sniffing phase causes an
`unwrap` panic (aborting, not returning an error to the caller), and a read
failure during the streaming phase is silently swallowed by `unwrap_or(0)`
and treated as end-of-stream: the renderer stops and completes normally. -/
theorem c4_amended_error_swallowed :
    display_file_content infer_get ⟨8192, [], true⟩ = (.sniffPanic, ⟨8192, [], true⟩) ∧
    display_file_content infer_get ⟨2, [0x61, 0x62, 0x63], true⟩
      = (.streamed (.done [[0x61, 0x62], [0x63]]), ⟨2, [], true⟩) := by
  decide

/-- C5 (confirmed): for every stream whose magic window starts with the PNG
signature bytes `89 50 4E 47 0D 0A 1A 0A`, the renderer emits exactly the
fixed "preview not available" notice, emits zero content fragments, and the
source is left exactly where the magic-window read left it — no further
bytes are read for display purposes. -/
theorem c5_png_notice (src : Source) (w : List Nat) (s1 : Source)
    (hread : src.read MAGIC_BYTES_SIZE = (some w, s1))
    (hpng : w.take 8 = [0x89, 0x50, 0x4E, 0x47, 0x0D, 0x0A, 0x1A, 0x0A]) :
    display_file_content infer_get src = (.notice, s1) ∧
    (display_file_content infer_get src).1.contentFrags = [] := by
  have hsn : infer_get w = some mimeImagePng := by
    unfold infer_get
    rw [if_pos hpng]
  have h1 : display_file_content infer_get src = (.notice, s1) := by
    simp only [display_file_content, hread, hsn,
      show isTextualMime mimeImagePng = false from by decide, Bool.false_eq_true, ite_false]
  exact ⟨h1, by rw [h1]; rfl⟩

/-- C5 witness: a 9-byte PNG-headed stream produces the notice and nothing
else, with only the magic-window read consumed. -/
theorem c5_png_notice_witness :
    display_file_content infer_get
        ⟨8192, [0x89, 0x50, 0x4E, 0x47, 0x0D, 0x0A, 0x1A, 0x0A, 0x00], false⟩
      = (.notice, ⟨8192, [], false⟩) ∧
    (display_file_content infer_get
        ⟨8192, [0x89, 0x50, 0x4E, 0x47, 0x0D, 0x0A, 0x1A, 0x0A, 0x00], false⟩).1.contentFrags
      = [] :=
  c5_png_notice ⟨8192, [0x89, 0x50, 0x4E, 0x47, 0x0D, 0x0A, 0x1A, 0x0A, 0x00], false⟩
    [0x89, 0x50, 0x4E, 0x47, 0x0D, 0x0A, 0x1A, 0x0A, 0x00] ⟨8192, [], false⟩
    (by decide) (by decide)

/-- C6 (confirmed): whenever the sniffer returns no classification for the
magic window (Unknown), `display_file_content` enters the streaming phase on
that window — the content is rendered, not rejected: Unknown is
previewable-by-default. -/
theorem c6_unknown_is_rendered (sniff : List Nat → Option (List Nat)) (src : Source)
    (w : List Nat) (s1 : Source)
    (hread : src.read MAGIC_BYTES_SIZE = (some w, s1)) (hu : sniff w = none) :
    display_file_content sniff src
      = (.streamed (streamLoop (s1.data.length + 1) s1 w []).1,
         (streamLoop (s1.data.length + 1) s1 w []).2) := by
  simp only [display_file_content, hread, hu]

/-- C6 witness: an unclassified one-byte stream is streamed (and renders its
content). -/
theorem c6_unknown_is_rendered_witness :
    display_file_content (fun _ => none) ⟨8192, [0x41], false⟩
      = (.streamed (streamLoop ((⟨8192, [], false⟩ : Source).data.length + 1)
            ⟨8192, [], false⟩ [0x41] []).1,
         (streamLoop ((⟨8192, [], false⟩ : Source).data.length + 1)
            ⟨8192, [], false⟩ [0x41] []).2) :=
  c6_unknown_is_rendered (fun _ => none) ⟨8192, [0x41], false⟩ [0x41] ⟨8192, [], false⟩
    (by decide) rfl

/-- C7, as stated, is false: a 3-byte character straddling a chunk boundary
between its first and second byte is not always output.  For the valid input
"a€" (bytes `61 E2 82 AC`) at chunk size 2 — the boundary falls between `E2`
and `82` — the whole output is just `a`: the euro sign is the final
character, its bytes are carried and then discarded at end of stream, so its
lead byte `E2` never reaches the output. -/
theorem c7_counterexample :
    [0x61, 0xE2, 0x82, 0xAC] = utf8EncodeList [0x61, 0x20AC] ∧
    (renderStream 2 [0x61, 0xE2, 0x82, 0xAC]).1.frags.flatten = [0x61] ∧
    ¬ (0xE2 ∈ (renderStream 2 [0x61, 0xE2, 0x82, 0xAC]).1.frags.flatten) := by
  decide

/-- C7 (amended): for every valid input containing a 3-byte character `c`
that is followed by at least one further character, at every chunk size
`k ≥ 1` (in particular when a chunk boundary falls inside `c`'s bytes), the
renderer terminates normally, and some single emitted fragment contains the
complete 3-byte encoding of `c` contiguously — the character is never split
across fragments.  Only a trailing multi-byte character is dropped (see the
counterexample). -/
theorem c7_amended_intact_char (as bs : List Nat) (c k : Nat)
    (hsa : ∀ x ∈ as, scalarChar x = true) (hc : scalarChar c = true)
    (hsb : ∀ x ∈ bs, scalarChar x = true)
    (h3 : 0x800 ≤ c) (h3' : c < 0x10000) (hbs : bs ≠ []) (hk : 1 ≤ k) :
    ∃ (css : List (List Nat)) (src' : Source),
      renderStream k (utf8EncodeList (as ++ c :: bs))
        = (.done (css.map utf8EncodeList), src') ∧
      css.flatten = trimChars (as ++ c :: bs) ∧
      ∃ f ∈ css.map utf8EncodeList, ∃ x y, f = x ++ utf8EncodeChar c ++ y := by
  have hall : ∀ x ∈ as ++ c :: bs, scalarChar x = true := by
    intro x hx
    rcases List.mem_append.mp hx with h | h
    · exact hsa x h
    · rcases List.mem_cons.mp h with rfl | h
      · exact hc
      · exact hsb x h
  obtain ⟨css, src', heq, hf⟩ := renderStream_valid (as ++ c :: bs) k hall (by simp) hk
  refine ⟨css, src', heq, hf, ?_⟩
  have hctrim : c ∈ trimChars (as ++ c :: bs) := by
    rw [show (as ++ c :: bs : List Nat) = (as ++ [c]) ++ bs from by simp,
      trimChars_append hbs]
    exact List.mem_append.mpr (Or.inl (List.mem_append.mpr (Or.inr (List.mem_singleton.mpr rfl))))
  rw [← hf] at hctrim
  obtain ⟨l, hl, hcl⟩ := List.mem_flatten.mp hctrim
  obtain ⟨x', y', hxy⟩ := List.append_of_mem hcl
  refine ⟨utf8EncodeList l, List.mem_map_of_mem utf8EncodeList hl,
    utf8EncodeList x', utf8EncodeList y', ?_⟩
  rw [hxy, utf8EncodeList_append, utf8EncodeList_cons, List.append_assoc]

/-- C7 witness: the amended theorem applied to "€A" at chunk size 2, where
the chunk boundary falls between the euro sign's first and second byte. -/
theorem c7_amended_intact_char_witness :
    ∃ (css : List (List Nat)) (src' : Source),
      renderStream 2 (utf8EncodeList ([] ++ 0x20AC :: [0x41]))
        = (.done (css.map utf8EncodeList), src') ∧
      css.flatten = trimChars ([] ++ 0x20AC :: [0x41]) ∧
      ∃ f ∈ css.map utf8EncodeList, ∃ x y, f = x ++ utf8EncodeChar 0x20AC ++ y :=
  c7_amended_intact_char [] [0x41] 0x20AC 2 (by decide) (by decide) (by decide)
    (by decide) (by decide) (by decide) (by decide)

/-- C8 (confirmed): whenever the backward scan walks the whole filled buffer
without finding a boundary byte (every byte fails the lead-byte test), the
loop executes the `return` at once: it emits nothing further, reads nothing
further (the source is returned untouched) and terminates — it does not
spin. -/
theorem c8_scan_guard_terminates (fuel : Nat) (src : Source) (buf : List Nat)
    (acc : List (List Nat)) (hfuel : 0 < fuel) (hne : buf ≠ [])
    (hnb : ∀ b ∈ buf, isBoundary b = false) :
    streamLoop fuel src buf acc = (.guard acc, src) := by
  rcases fuel with _ | fuel
  · omega
  · exact streamLoop_guard fuel src acc hne (splitLast_eq_none hnb)

/-- C8 witness: a buffer holding the lone continuation byte `80`. -/
theorem c8_scan_guard_terminates_witness :
    streamLoop 1 ⟨1, [], false⟩ [0x80] [] = (.guard [], ⟨1, [], false⟩) :=
  c8_scan_guard_terminates 1 ⟨1, [], false⟩ [0x80] [] (by decide) (by decide) (by decide)

/-- C9 evaluation at the failing input: the TAR walker applies the handler
to a non-directory entry named `._hidden`, although the claim (and the
function's own doc comment) says entries whose name contains `._` are
excluded; only the directory entry is skipped. -/
theorem c9_metadata_entry_handled :
    handle_tar_entries_from_tar_archive
        [⟨['.', '_', 'h', 'i', 'd', 'd', 'e', 'n'], false⟩, ⟨['d', 'i', 'r'], true⟩]
      = [⟨['.', '_', 'h', 'i', 'd', 'd', 'e', 'n'], false⟩] := by
  decide

/-- C10 (confirmed): on the degraded (malformed UTF-8) path, the
line-by-line re-validation filter retains every line — re-validating the
bytes of an already lossily-converted string always succeeds — so the
degraded output is exactly the lossy conversion of the emit range with its
lines re-joined by the (non-Windows) line ending; no line is ever
dropped. -/
theorem c10_degraded_keeps_all_lines (bs : List Nat) :
    (splitNl (lossyDecode bs)).filter (fun l => utf8Valid (utf8EncodeList l))
        = splitNl (lossyDecode bs) ∧
    degraded bs = utf8EncodeList (lossyDecode bs) :=
  ⟨degraded_filter_keeps bs, degraded_eq bs⟩
